import Mathlib

/-!
Verification of the day-3 schematic parser (`src/day3/schematic_parser.rs`).

The embedding works over lines represented as `List Char` (logical characters,
the Rust `chars()` iterator).  Byte offsets are modelled explicitly via the
UTF-8 size of each character, so that the byte-range / character-range duality
of the Rust code is preserved.  Machine integers are modelled as `Nat` with
explicit `% 2 ^ 64` where `u64` overflow matters.
-/

namespace Day3

/-- UTF-8 encoded size of a character, in bytes (1 to 4). -/
def csize (c : Char) : Nat :=
  if c.val < 0x80 then 1
  else if c.val < 0x800 then 2
  else if c.val < 0x10000 then 3
  else 4

/-- Byte offset of the character at index `i` of the line (sum of the UTF-8
sizes of the characters before it). -/
def byteOffset (line : List Char) (i : Nat) : Nat :=
  ((line.take i).map csize).sum

/-- Total byte length of a line. -/
def byteLen (line : List Char) : Nat :=
  (line.map csize).sum

/-- The characters of `line` that fit in the first `n` bytes
(`&input[..n]` on a char boundary). -/
def take_bytes (line : List Char) (n : Nat) : List Char :=
  match line with
  | [] => []
  | c :: rest => if csize c ≤ n then c :: take_bytes rest (n - csize c) else []

/-- The characters of `line` after the first `n` bytes
(`&input[n..]` on a char boundary). -/
def drop_bytes (line : List Char) (n : Nat) : List Char :=
  match line with
  | [] => []
  | c :: rest => if csize c ≤ n then drop_bytes rest (n - csize c) else c :: rest

/-- `usize::checked_sub`. -/
def checked_sub (n k : Nat) : Option Nat :=
  if k ≤ n then some (n - k) else none

/-- `CharsRange`: a half-open range in terms of the `chars()` iterator. -/
structure CharsRange where
  start : Nat
  stop : Nat
  deriving DecidableEq

namespace CharsRange

/-- `input[..bytes_index].chars().count()`. -/
def bytes_index_to_chars_index (input : List Char) (bytes_index : Nat) : Nat :=
  (take_bytes input bytes_index).length

/-- `CharsRange::from_bytes_range`. -/
def from_bytes_range (input : List Char) (bytes_range : Nat × Nat) : CharsRange :=
  ⟨bytes_index_to_chars_index input bytes_range.1,
   bytes_index_to_chars_index input bytes_range.2⟩

/-- `CharsRange::grown_by_one` (saturating at 0 on the left). -/
def grown_by_one (r : CharsRange) : CharsRange :=
  ⟨r.start - 1, r.stop + 1⟩

/-- `Range::contains`. -/
def containsIdx (r : CharsRange) (i : Nat) : Bool :=
  decide (r.start ≤ i) && decide (i < r.stop)

/-- `Range::len`. -/
def len (r : CharsRange) : Nat := r.stop - r.start

end CharsRange

/-- `is_symbol`: any character that is not an ASCII digit and not `'.'`. -/
def is_symbol (c : Char) : Bool :=
  !c.isDigit && c ≠ '.'

/-- `is_symbol_left`: symbol immediately left of the given byte range
(`input[..start].chars().last()`); `false` when there is no such character. -/
def is_symbol_left (input : List Char) (number_bytes_range : Nat × Nat) : Bool :=
  match (take_bytes input number_bytes_range.1).getLast? with
  | some c => is_symbol c
  | none => false

/-- `is_symbol_right`: symbol immediately right of the given byte range
(`input[end..].chars().next()`); `false` when there is no such character. -/
def is_symbol_right (input : List Char) (number_bytes_range : Nat × Nat) : Bool :=
  match (drop_bytes input number_bytes_range.2).head? with
  | some c => is_symbol c
  | none => false

/-- `is_symbol_in_or_next_to_range`: the range grown by one on each side,
scanned via `chars().skip(start).take(len)`. -/
def is_symbol_in_or_next_to_range (input : List Char) (number_chars_range : CharsRange) : Bool :=
  let g := number_chars_range.grown_by_one
  ((input.drop g.start).take g.len).any is_symbol

/-- `is_symbol_in_line_idx`. -/
def is_symbol_in_line_idx (lines : List (List Char)) (line_idx : Option Nat)
    (number_chars_range : CharsRange) : Bool :=
  match line_idx with
  | none => false
  | some i =>
    match lines.get? i with
    | none => false
    | some l => is_symbol_in_or_next_to_range l number_chars_range

/-- `is_symbol_above`. -/
def is_symbol_above (lines : List (List Char)) (number_line_idx : Nat)
    (number_chars_range : CharsRange) : Bool :=
  is_symbol_in_line_idx lines (checked_sub number_line_idx 1) number_chars_range

/-- `is_symbol_below` (`checked_add 1` cannot overflow on `Nat`). -/
def is_symbol_below (lines : List (List Char)) (number_line_idx : Nat)
    (number_chars_range : CharsRange) : Bool :=
  is_symbol_in_line_idx lines (some (number_line_idx + 1)) number_chars_range

/-- `PartNumber`. -/
structure PartNumber where
  part_number : Nat
  line_idx : Nat
  range_bytes : Nat × Nat
  range_chars : CharsRange
  deriving DecidableEq

/-- `Gear`. -/
structure Gear where
  line_idx : Nat
  index_bytes : Nat
  index_chars : Nat
  neighbors : PartNumber × PartNumber
  deriving DecidableEq

/-- `Schematic`. -/
structure Schematic where
  part_numbers : List PartNumber
  gears : List Gear
  deriving DecidableEq

/-- `PartNumber::is_neighboring_char`. -/
def PartNumber.is_neighboring_char (pn : PartNumber) (line_idx index_chars : Nat) : Bool :=
  let is_gear_on_same_line := pn.line_idx == line_idx
  let is_gear_on_line_above := (line_idx + 1) == pn.line_idx
  let is_gear_on_line_below := checked_sub line_idx 1 == some pn.line_idx
  let is_gear_to_left :=
    is_gear_on_same_line && (checked_sub pn.range_chars.start 1 == some index_chars)
  let is_gear_to_right := is_gear_on_same_line && (pn.range_chars.stop == index_chars)
  let is_gear_above :=
    is_gear_on_line_above && pn.range_chars.grown_by_one.containsIdx index_chars
  let is_gear_below :=
    is_gear_on_line_below && pn.range_chars.grown_by_one.containsIdx index_chars
  is_gear_to_left || is_gear_to_right || is_gear_above || is_gear_below

/-- `Gear::gear_ratio`: `u64` multiplication, modelled with wraparound
modulo `2 ^ 64`. -/
def Gear.gear_ratio (g : Gear) : Nat :=
  (g.neighbors.1.part_number * g.neighbors.2.part_number) % 2 ^ 64

/-- Whether the character at index `j` of the line is an ASCII digit
(`false` past the end of the line). -/
def digitAt (line : List Char) (j : Nat) : Bool :=
  match line.get? j with
  | some c => c.isDigit
  | none => false

/-- Whether the character at index `j` of the line is a symbol
(`false` past the end of the line). -/
def symbolAt (line : List Char) (j : Nat) : Bool :=
  match line.get? j with
  | some c => is_symbol c
  | none => false

/-- Whether a maximal digit run starts at char index `s`. -/
def isRunStart (line : List Char) (s : Nat) : Bool :=
  digitAt line s && (decide (s = 0) || !digitAt line (s - 1))

/-- End (exclusive) of the digit run starting at char index `s`. -/
def runStop (line : List Char) (s : Nat) : Nat :=
  s + ((line.drop s).takeWhile Char.isDigit).length

/-- `NUMBER_REGEX.find_iter`: all maximal runs of ASCII digits, in order,
as half-open char-index ranges. -/
def digitRuns (line : List Char) : List (Nat × Nat) :=
  (List.range line.length).filterMap fun s =>
    if isRunStart line s then some (s, runStop line s) else none

/-- The matched substring of a run. -/
def runText (line : List Char) (r : Nat × Nat) : List Char :=
  (line.drop r.1).take (r.2 - r.1)

/-- Decimal value of a digit string. -/
def natOfDigits (l : List Char) : Nat :=
  l.foldl (fun a c => a * 10 + (c.toNat - 48)) 0

/-- The error raised by `Schematic::from_str` (via `anyhow::Context`) when a
digit run does not fit in a `u64`. -/
inductive ParseError where
  | malformedNumber (line : List Char) (text : List Char)
  deriving DecidableEq

/-- One iteration of the pass-1 loop body for a single number match:
the `PartNumber` kept for the run, if any (`None` when no adjacent symbol). -/
def keepFn (lines : List (List Char)) (line_idx : Nat) (line : List Char)
    (r : Nat × Nat) : Option PartNumber :=
  let bytesRange := (byteOffset line r.1, byteOffset line r.2)
  let charRange := CharsRange.from_bytes_range line bytesRange
  if is_symbol_left line bytesRange || is_symbol_right line bytesRange ||
      is_symbol_above lines line_idx charRange || is_symbol_below lines line_idx charRange then
    some ⟨natOfDigits (runText line r), line_idx, bytesRange, charRange⟩
  else
    none

/-- Pass 1 over the number matches of one line: parse each run as `u64`
(failing on overflow) and keep it when it has an adjacent symbol. -/
def processRuns (lines : List (List Char)) (line_idx : Nat) (line : List Char) :
    List (Nat × Nat) → Except ParseError (List PartNumber)
  | [] => .ok []
  | r :: rs =>
    let text := runText line r
    if natOfDigits text < 2 ^ 64 then
      match processRuns lines line_idx line rs with
      | .ok pns =>
        .ok (match keepFn lines line_idx line r with
             | some pn => pn :: pns
             | none => pns)
      | .error e => .error e
    else
      .error (.malformedNumber line text)

/-- Pass 1 over all (indexed) lines. -/
def processLines (lines : List (List Char)) :
    List (Nat × List Char) → Except ParseError (List PartNumber)
  | [] => .ok []
  | (li, line) :: rest =>
    match processRuns lines li line (digitRuns line) with
    | .error e => .error e
    | .ok a =>
      match processLines lines rest with
      | .error e => .error e
      | .ok b => .ok (a ++ b)

/-- `line.match_indices('*')`, as char indices. -/
def starIndices (line : List Char) : List Nat :=
  (List.range line.length).filter fun i => line.get? i == some '*'

/-- Pass 2 over one line: the gears emitted for its `'*'` characters. -/
def gearsOfLine (pns : List PartNumber) (line_idx : Nat) (line : List Char) : List Gear :=
  (starIndices line).filterMap fun i =>
    let b := byteOffset line i
    let ci := CharsRange.bytes_index_to_chars_index line b
    match pns.filter (fun p => p.is_neighboring_char line_idx ci) with
    | [n1, n2] => some ⟨line_idx, b, ci, (n1, n2)⟩
    | _ => none

/-- Pass 2 over all (indexed) lines. -/
def gearsOf (pns : List PartNumber) : List (Nat × List Char) → List Gear
  | [] => []
  | (li, line) :: rest => gearsOfLine pns li line ++ gearsOf pns rest

/-- `iter().enumerate()` starting at `n`. -/
def idxd (n : Nat) : List α → List (Nat × α)
  | [] => []
  | a :: as => (n, a) :: idxd (n + 1) as

/-- `Schematic::from_str`, starting from the already-split lines. -/
def Schematic.fromLines (lines : List (List Char)) : Except ParseError Schematic :=
  match processLines lines (idxd 0 lines) with
  | .error e => .error e
  | .ok pns => .ok ⟨pns, gearsOf pns (idxd 0 lines)⟩

/-- Strip one trailing carriage return (part of a `\r\n` line ending). -/
def stripCr (l : List Char) : List Char :=
  if l.getLast? == some '\x0d' then l.dropLast else l

/-- Accumulating splitter for `str::lines`: `cur` is the current line,
reversed. -/
def linesAux (cur : List Char) : List Char → List (List Char)
  | [] => [cur.reverse]
  | c :: rest =>
    if c = '\x0a' then stripCr cur.reverse :: linesAux [] rest
    else linesAux (c :: cur) rest

/-- `str::lines`: split at `\n` (stripping a preceding `\r`), with the final
line ending optional. -/
def linesOf (doc : List Char) : List (List Char) :=
  let ps := linesAux [] doc
  if ps.getLast? == some [] then ps.dropLast else ps

/-- `Schematic::from_str` on a raw document. -/
def Schematic.from_str (doc : List Char) : Except ParseError Schematic :=
  Schematic.fromLines (linesOf doc)

/-- Shorthand: the characters of a string literal. -/
def toL (s : String) : List Char := s.toList

/-! ### Spec-side predicates

These follow the wording of the specification (§3 invariants, §4.4), to be
compared with the code-side predicates above. -/

/-- Spec: a symbol character immediately precedes the run on its line. -/
def spec_left (line : List Char) (a : Nat) : Bool :=
  decide (a ≠ 0) && symbolAt line (a - 1)

/-- Spec: a symbol character immediately follows the run on its line. -/
def spec_right (line : List Char) (b : Nat) : Bool :=
  symbolAt line b

/-- Spec: a symbol character exists in the character-column window
`[a - 1, b + 1)` of the given line (clipped to the line's own length). -/
def spec_window (other : List Char) (a b : Nat) : Bool :=
  (List.range other.length).any fun j =>
    decide (a ≤ j + 1) && decide (j < b + 1) && symbolAt other j

/-- The line at a given index, or the empty line when out of range. -/
def lineAt (lines : List (List Char)) (i : Nat) : List Char :=
  (lines.get? i).getD []

/-- Spec: the inclusion condition for a run `[a, b)` on line `li` — a symbol
immediately left, immediately right, or in the widened window on the line
directly above or directly below. -/
def spec_adjacent (lines : List (List Char)) (line : List Char) (li a b : Nat) : Bool :=
  spec_left line a || spec_right line b ||
  (decide (0 < li) && spec_window (lineAt lines (li - 1)) a b) ||
  spec_window (lineAt lines (li + 1)) a b

/-- Spec: the gear-neighbor predicate — same line and the `*` index is exactly
one before the span start or exactly the span end; or the line index differs
by exactly one and the index falls in the span widened by one on each side. -/
def spec_neighbor (pn : PartNumber) (li i : Nat) : Bool :=
  (decide (pn.line_idx = li) &&
    (decide (i + 1 = pn.range_chars.start) || decide (i = pn.range_chars.stop))) ||
  ((decide (li + 1 = pn.line_idx) || decide (pn.line_idx + 1 = li)) &&
    decide (pn.range_chars.start - 1 ≤ i) && decide (i < pn.range_chars.stop + 1))

/-- The number of `*` positions in the document that satisfy the neighbor
predicate against a given part number. -/
def starsNeighboring (lines : List (List Char)) (pn : PartNumber) : Nat :=
  ((idxd 0 lines).map fun p =>
    ((starIndices p.2).filter fun i => pn.is_neighboring_char p.1 i).length).sum

instance : DecidableEq (Except ParseError Schematic) := fun a b =>
  match a, b with
  | .ok x, .ok y => decidable_of_iff (x = y) (by simp)
  | .error x, .error y => decidable_of_iff (x = y) (by simp)
  | .ok _, .error _ => .isFalse (by simp)
  | .error _, .ok _ => .isFalse (by simp)

/-! ### Byte-offset infrastructure -/

lemma csize_pos (c : Char) : 0 < csize c := by
  unfold csize
  split
  · exact Nat.one_pos
  split
  · exact Nat.zero_lt_two
  split
  · exact Nat.zero_lt_succ 2
  · exact Nat.zero_lt_succ 3

lemma csize_digit (c : Char) (h : c.isDigit = true) : csize c = 1 := by
  simp only [Char.isDigit, Bool.and_eq_true, decide_eq_true_eq] at h
  have h2 : c.val.toNat ≤ 57 := h.2
  have hlt : c.val < 128 := by
    show c.val.toNat < 128
    omega
  unfold csize
  rw [if_pos]
  exact hlt

@[simp] lemma byteOffset_zero (line : List Char) : byteOffset line 0 = 0 := by
  simp [byteOffset]

@[simp] lemma byteOffset_nil (i : Nat) : byteOffset [] i = 0 := by
  simp [byteOffset]

@[simp] lemma byteOffset_cons_succ (c : Char) (l : List Char) (i : Nat) :
    byteOffset (c :: l) (i + 1) = csize c + byteOffset l i := by
  simp [byteOffset, List.take_succ_cons]

lemma take_bytes_byteOffset (line : List Char) (i : Nat) :
    take_bytes line (byteOffset line i) = line.take i := by
  induction line generalizing i with
  | nil => simp [take_bytes]
  | cons c rest ih =>
    cases i with
    | zero =>
      have : ¬ csize c ≤ 0 := by
        have := csize_pos c; omega
      simp [take_bytes, this]
    | succ i =>
      have hc : csize c ≤ csize c + byteOffset rest i := Nat.le_add_right _ _
      simp only [byteOffset_cons_succ, take_bytes, if_pos hc, Nat.add_sub_cancel_left,
        List.take_succ_cons]
      rw [ih]

lemma drop_bytes_byteOffset (line : List Char) (i : Nat) :
    drop_bytes line (byteOffset line i) = line.drop i := by
  induction line generalizing i with
  | nil => simp [drop_bytes]
  | cons c rest ih =>
    cases i with
    | zero =>
      have : ¬ csize c ≤ 0 := by
        have := csize_pos c; omega
      simp [drop_bytes, this]
    | succ i =>
      have hc : csize c ≤ csize c + byteOffset rest i := Nat.le_add_right _ _
      simp only [byteOffset_cons_succ, drop_bytes, if_pos hc, Nat.add_sub_cancel_left,
        List.drop_succ_cons]
      exact ih i

lemma drop_bytes_of_byteLen_le (line : List Char) (n : Nat) (h : byteLen line ≤ n) :
    drop_bytes line n = [] := by
  induction line generalizing n with
  | nil => simp [drop_bytes]
  | cons c rest ih =>
    have hlen : byteLen (c :: rest) = csize c + byteLen rest := by
      simp [byteLen]
    have hc : csize c ≤ n := by omega
    simp only [drop_bytes, if_pos hc]
    exact ih _ (by omega)

lemma bytes_index_to_chars_index_byteOffset (line : List Char) (i : Nat)
    (h : i ≤ line.length) :
    CharsRange.bytes_index_to_chars_index line (byteOffset line i) = i := by
  unfold CharsRange.bytes_index_to_chars_index
  rw [take_bytes_byteOffset, List.length_take, Nat.min_eq_left h]

lemma from_bytes_range_byteOffset (line : List Char) (a b : Nat)
    (ha : a ≤ line.length) (hb : b ≤ line.length) :
    CharsRange.from_bytes_range line (byteOffset line a, byteOffset line b) = ⟨a, b⟩ := by
  unfold CharsRange.from_bytes_range
  rw [bytes_index_to_chars_index_byteOffset line a ha,
    bytes_index_to_chars_index_byteOffset line b hb]

lemma byteOffset_length (line : List Char) : byteOffset line line.length = byteLen line := by
  simp [byteOffset, byteLen, List.take_length]

lemma byteOffset_mono (line : List Char) {a b : Nat} (h : a ≤ b) :
    byteOffset line a ≤ byteOffset line b := by
  induction line generalizing a b with
  | nil => simp
  | cons c rest ih =>
    cases a with
    | zero => simp
    | succ a =>
      cases b with
      | zero => omega
      | succ b =>
        simp only [byteOffset_cons_succ]
        have := ih (a := a) (b := b) (by omega)
        omega

/-- On a segment of single-byte characters, byte offsets advance by exactly
one per character. -/
lemma byteOffset_eq_of_all_single (line : List Char) (i : Nat) (h : i ≤ line.length)
    (hs : ∀ c ∈ line.take i, csize c = 1) : byteOffset line i = i := by
  induction line generalizing i with
  | nil => simp_all
  | cons c rest ih =>
    cases i with
    | zero => simp
    | succ i =>
      have hc : csize c = 1 := hs c (by simp [List.take_succ_cons])
      have hr : ∀ x ∈ rest.take i, csize x = 1 := by
        intro x hx
        exact hs x (by simp [List.take_succ_cons, hx])
      simp only [byteOffset_cons_succ, hc]
      rw [ih i (by simpa using h) hr]
      omega

/-- Each character contributes at least one byte. -/
lemma le_byteOffset (line : List Char) (i : Nat) (h : i ≤ line.length) :
    i ≤ byteOffset line i := by
  induction line generalizing i with
  | nil => simp_all
  | cons c rest ih =>
    cases i with
    | zero => simp
    | succ i =>
      have := csize_pos c
      have := ih i (by simpa using h)
      simp only [byteOffset_cons_succ]
      omega

/-- If byte offset `i` equals `i`, every character before index `i` is
single-byte. -/
lemma all_single_of_byteOffset_eq (line : List Char) (i : Nat) (h : i ≤ line.length)
    (he : byteOffset line i = i) : ∀ c ∈ line.take i, csize c = 1 := by
  induction line generalizing i with
  | nil => simp
  | cons c rest ih =>
    cases i with
    | zero => simp
    | succ i =>
      have hpos := csize_pos c
      have hle := le_byteOffset rest i (by simpa using h)
      have hc : csize c = 1 := by
        simp only [byteOffset_cons_succ] at he
        omega
      intro x hx
      simp only [List.take_succ_cons, List.mem_cons] at hx
      rcases hx with rfl | hx
      · exact hc
      · have he' : byteOffset rest i = i := by
          simp only [byteOffset_cons_succ, hc] at he
          omega
        exact ih i (by simpa using h) he' x hx

/-! ### takeWhile infrastructure -/

lemma takeWhile_get? {α : Type} (p : α → Bool) (l : List α) (k : Nat)
    (h : k < (l.takeWhile p).length) : ∃ c, l.get? k = some c ∧ p c = true := by
  induction l generalizing k with
  | nil => simp [List.takeWhile] at h
  | cons a as ih =>
    rw [List.takeWhile_cons] at h
    by_cases hp : p a = true
    · simp only [hp, if_true, List.length_cons] at h
      cases k with
      | zero => exact ⟨a, rfl, hp⟩
      | succ k => exact ih k (by omega)
    · simp [hp] at h

lemma get?_takeWhile_length {α : Type} (p : α → Bool) (l : List α) (c : α)
    (h : l.get? ((l.takeWhile p).length) = some c) : p c = false := by
  induction l with
  | nil => simp at h
  | cons a as ih =>
    rw [List.takeWhile_cons] at h
    by_cases hp : p a = true
    · simp only [hp, if_true, List.length_cons] at h
      exact ih h
    · rw [if_neg hp] at h
      simp only [List.length_nil, List.get?_cons_zero, Option.some.injEq] at h
      subst h
      simpa using hp

lemma take_takeWhile_length {α : Type} (p : α → Bool) (l : List α) :
    l.take ((l.takeWhile p).length) = l.takeWhile p := by
  induction l with
  | nil => simp
  | cons a as ih =>
    rw [List.takeWhile_cons]
    by_cases hp : p a = true
    · simp [hp, List.take_succ_cons, ih]
    · simp [hp]

lemma takeWhile_length_le {α : Type} (p : α → Bool) (l : List α) :
    (l.takeWhile p).length ≤ l.length := by
  induction l with
  | nil => simp
  | cons a as ih =>
    rw [List.takeWhile_cons]
    by_cases hp : p a = true
    · simp only [hp, if_true, List.length_cons]
      omega
    · simp [hp]

/-! ### Digit-run infrastructure -/

lemma digitAt_iff (line : List Char) (j : Nat) :
    digitAt line j = true ↔ ∃ c, line.get? j = some c ∧ c.isDigit = true := by
  unfold digitAt
  cases hl : line.get? j with
  | none => simp
  | some c => simp

lemma digitAt_lt_length (line : List Char) (j : Nat) (h : digitAt line j = true) :
    j < line.length := by
  rw [digitAt_iff] at h
  obtain ⟨c, hc, _⟩ := h
  by_contra hj
  rw [List.get?_eq_none.mpr (by omega)] at hc
  exact Option.noConfusion hc

lemma isRunStart_lt_length (line : List Char) (s : Nat) (h : isRunStart line s = true) :
    s < line.length := by
  unfold isRunStart at h
  rw [Bool.and_eq_true] at h
  exact digitAt_lt_length line s h.1

lemma runStop_le_length (line : List Char) (s : Nat) (h : s ≤ line.length) :
    runStop line s ≤ line.length := by
  unfold runStop
  have h1 := takeWhile_length_le Char.isDigit (line.drop s)
  rw [List.length_drop] at h1
  omega

lemma lt_runStop (line : List Char) (s : Nat) (h : digitAt line s = true) :
    s < runStop line s := by
  rw [digitAt_iff] at h
  obtain ⟨c, hc, hd⟩ := h
  unfold runStop
  have hdrop : (line.drop s).get? 0 = some c := by
    rw [List.get?_drop]
    simpa using hc
  cases hl : line.drop s with
  | nil => rw [hl] at hdrop; simp at hdrop
  | cons x xs =>
    rw [hl] at hdrop
    simp only [List.get?_cons_zero, Option.some.injEq] at hdrop
    subst hdrop
    rw [List.takeWhile_cons, if_pos hd]
    simp only [List.length_cons]
    omega

lemma digitAt_of_run (line : List Char) (s j : Nat) (hs : s ≤ j)
    (hj : j < runStop line s) : digitAt line j = true := by
  unfold runStop at hj
  obtain ⟨c, hc, hd⟩ := takeWhile_get? Char.isDigit (line.drop s) (j - s) (by omega)
  rw [List.get?_drop] at hc
  rw [digitAt_iff]
  exact ⟨c, by rwa [Nat.add_sub_cancel' hs] at hc, hd⟩

lemma digitAt_runStop (line : List Char) (s : Nat) :
    digitAt line (runStop line s) = false := by
  cases hl : line.get? (runStop line s) with
  | none => unfold digitAt; rw [hl]
  | some c =>
    have hdrop : (line.drop s).get? ((List.takeWhile Char.isDigit (line.drop s)).length)
        = some c := by
      rw [List.get?_drop]
      exact hl
    have hf := get?_takeWhile_length Char.isDigit (line.drop s) c hdrop
    unfold digitAt
    rw [hl]
    exact hf

lemma mem_digitRuns (line : List Char) (a b : Nat) :
    (a, b) ∈ digitRuns line ↔ isRunStart line a = true ∧ b = runStop line a := by
  unfold digitRuns
  rw [List.mem_filterMap]
  constructor
  · rintro ⟨s, _, hf⟩
    by_cases hrs : isRunStart line s = true
    · rw [if_pos hrs] at hf
      obtain ⟨rfl, rfl⟩ := Prod.mk.injEq .. ▸ Option.some.inj hf
      exact ⟨hrs, rfl⟩
    · rw [if_neg hrs] at hf
      exact Option.noConfusion hf
  · rintro ⟨hrs, rfl⟩
    exact ⟨a, List.mem_range.mpr (isRunStart_lt_length line a hrs), by rw [if_pos hrs]⟩

lemma digitRuns_subrange (line : List Char) (a b : Nat) (h : (a, b) ∈ digitRuns line) :
    a < b ∧ b ≤ line.length := by
  rw [mem_digitRuns] at h
  obtain ⟨hrs, rfl⟩ := h
  have ha := isRunStart_lt_length line a hrs
  have hd : digitAt line a = true := by
    unfold isRunStart at hrs
    rw [Bool.and_eq_true] at hrs
    exact hrs.1
  exact ⟨lt_runStop line a hd, runStop_le_length line a (by omega)⟩

lemma runText_eq_takeWhile (line : List Char) (a : Nat) :
    runText line (a, runStop line a) = (line.drop a).takeWhile Char.isDigit := by
  unfold runText runStop
  simp only [Nat.add_sub_cancel_left]
  exact take_takeWhile_length _ _

lemma runText_digits (line : List Char) (a : Nat) (c : Char)
    (hc : c ∈ runText line (a, runStop line a)) : c.isDigit = true := by
  rw [runText_eq_takeWhile] at hc
  exact List.mem_takeWhile_imp hc

/-! ### Pass-1 / pass-2 characterization -/

lemma processRuns_ok_eq (lines : List (List Char)) (li : Nat) (line : List Char)
    (rs : List (Nat × Nat)) (pns : List PartNumber)
    (h : processRuns lines li line rs = .ok pns) :
    pns = rs.filterMap (keepFn lines li line) := by
  induction rs generalizing pns with
  | nil =>
    simp only [processRuns] at h
    cases h
    simp
  | cons r rs ih =>
    simp only [processRuns] at h
    by_cases hv : natOfDigits (runText line r) < 2 ^ 64
    · rw [if_pos hv] at h
      cases hrec : processRuns lines li line rs with
      | error e => rw [hrec] at h; exact Except.noConfusion h
      | ok pns' =>
        rw [hrec] at h
        simp only [Except.ok.injEq] at h
        subst h
        rw [List.filterMap_cons]
        cases hk : keepFn lines li line r with
        | none => simpa using ih pns' hrec
        | some pn => simpa [hk] using ih pns' hrec
    · rw [if_neg hv] at h
      exact Except.noConfusion h

lemma processRuns_ok_value (lines : List (List Char)) (li : Nat) (line : List Char)
    (rs : List (Nat × Nat)) (pns : List PartNumber)
    (h : processRuns lines li line rs = .ok pns) :
    ∀ r ∈ rs, natOfDigits (runText line r) < 2 ^ 64 := by
  induction rs generalizing pns with
  | nil => simp
  | cons r rs ih =>
    simp only [processRuns] at h
    by_cases hv : natOfDigits (runText line r) < 2 ^ 64
    · rw [if_pos hv] at h
      cases hrec : processRuns lines li line rs with
      | error e => rw [hrec] at h; exact Except.noConfusion h
      | ok pns' =>
        intro x hx
        rcases List.mem_cons.mp hx with rfl | hx
        · exact hv
        · exact ih pns' hrec x hx
    · rw [if_neg hv] at h
      exact Except.noConfusion h

lemma processRuns_error_form (lines : List (List Char)) (li : Nat) (line : List Char)
    (rs : List (Nat × Nat)) (e : ParseError)
    (h : processRuns lines li line rs = .error e) :
    ∃ r ∈ rs, e = .malformedNumber line (runText line r) ∧
      2 ^ 64 ≤ natOfDigits (runText line r) := by
  induction rs with
  | nil => simp only [processRuns] at h; exact Except.noConfusion h
  | cons r rs ih =>
    simp only [processRuns] at h
    by_cases hv : natOfDigits (runText line r) < 2 ^ 64
    · rw [if_pos hv] at h
      cases hrec : processRuns lines li line rs with
      | error e' =>
        rw [hrec] at h
        simp only [Except.error.injEq] at h
        subst h
        obtain ⟨r', hr', he⟩ := ih hrec
        exact ⟨r', List.mem_cons_of_mem _ hr', he⟩
      | ok pns' => rw [hrec] at h; exact Except.noConfusion h
    · rw [if_neg hv] at h
      simp only [Except.error.injEq] at h
      subst h
      exact ⟨r, List.mem_cons_self _ _, rfl, by omega⟩

lemma processRuns_error_exists (lines : List (List Char)) (li : Nat) (line : List Char)
    (rs : List (Nat × Nat)) (r : Nat × Nat) (hr : r ∈ rs)
    (hv : 2 ^ 64 ≤ natOfDigits (runText line r)) :
    ∃ e, processRuns lines li line rs = .error e := by
  induction rs with
  | nil => simp at hr
  | cons r' rs ih =>
    simp only [processRuns]
    by_cases hv' : natOfDigits (runText line r') < 2 ^ 64
    · rw [if_pos hv']
      rcases List.mem_cons.mp hr with rfl | hr'
      · omega
      · obtain ⟨e, he⟩ := ih hr'
        rw [he]
        exact ⟨e, rfl⟩
    · rw [if_neg hv']
      exact ⟨_, rfl⟩

lemma processLines_ok_eq (lines : List (List Char)) (l : List (Nat × List Char))
    (pns : List PartNumber) (h : processLines lines l = .ok pns) :
    pns = l.flatMap fun p => (digitRuns p.2).filterMap (keepFn lines p.1 p.2) := by
  induction l generalizing pns with
  | nil =>
    simp only [processLines] at h
    cases h
    simp
  | cons p l ih =>
    obtain ⟨li, line⟩ := p
    simp only [processLines] at h
    cases h1 : processRuns lines li line (digitRuns line) with
    | error e => rw [h1] at h; exact Except.noConfusion h
    | ok a =>
      rw [h1] at h
      cases h2 : processLines lines l with
      | error e => rw [h2] at h; exact Except.noConfusion h
      | ok b =>
        rw [h2] at h
        simp only [Except.ok.injEq] at h
        subst h
        rw [List.flatMap_cons, processRuns_ok_eq lines li line _ a h1, ih b h2]

lemma processLines_ok_value (lines : List (List Char)) (l : List (Nat × List Char))
    (pns : List PartNumber) (h : processLines lines l = .ok pns) :
    ∀ p ∈ l, ∀ r ∈ digitRuns p.2, natOfDigits (runText p.2 r) < 2 ^ 64 := by
  induction l generalizing pns with
  | nil => simp
  | cons p l ih =>
    obtain ⟨li, line⟩ := p
    simp only [processLines] at h
    cases h1 : processRuns lines li line (digitRuns line) with
    | error e => rw [h1] at h; exact Except.noConfusion h
    | ok a =>
      rw [h1] at h
      cases h2 : processLines lines l with
      | error e => rw [h2] at h; exact Except.noConfusion h
      | ok b =>
        intro q hq r hr
        rcases List.mem_cons.mp hq with rfl | hq
        · exact processRuns_ok_value lines li line _ a h1 r hr
        · exact ih b h2 q hq r hr

lemma processLines_error_form (lines : List (List Char)) (l : List (Nat × List Char))
    (e : ParseError) (h : processLines lines l = .error e) :
    ∃ p ∈ l, ∃ r ∈ digitRuns p.2, e = .malformedNumber p.2 (runText p.2 r) ∧
      2 ^ 64 ≤ natOfDigits (runText p.2 r) := by
  induction l with
  | nil => simp only [processLines] at h; exact Except.noConfusion h
  | cons p l ih =>
    obtain ⟨li, line⟩ := p
    simp only [processLines] at h
    cases h1 : processRuns lines li line (digitRuns line) with
    | error e' =>
      rw [h1] at h
      simp only [Except.error.injEq] at h
      subst h
      obtain ⟨r, hr, he⟩ := processRuns_error_form lines li line _ e' h1
      exact ⟨(li, line), List.mem_cons_self _ _, r, hr, he⟩
    | ok a =>
      rw [h1] at h
      cases h2 : processLines lines l with
      | error e' =>
        rw [h2] at h
        simp only [Except.error.injEq] at h
        subst h
        obtain ⟨p, hp, hrest⟩ := ih h2
        exact ⟨p, List.mem_cons_of_mem _ hp, hrest⟩
      | ok b => rw [h2] at h; exact Except.noConfusion h

lemma processLines_error_exists (lines : List (List Char)) (l : List (Nat × List Char))
    (p : Nat × List Char) (hp : p ∈ l) (r : Nat × Nat) (hr : r ∈ digitRuns p.2)
    (hv : 2 ^ 64 ≤ natOfDigits (runText p.2 r)) :
    ∃ e, processLines lines l = .error e := by
  induction l with
  | nil => simp at hp
  | cons q l ih =>
    obtain ⟨li, line⟩ := q
    simp only [processLines]
    cases h1 : processRuns lines li line (digitRuns line) with
    | error e => exact ⟨e, rfl⟩
    | ok a =>
      rcases List.mem_cons.mp hp with rfl | hp'
      · obtain ⟨e, he⟩ := processRuns_error_exists lines li line _ r hr hv
        rw [he] at h1
        exact Except.noConfusion h1
      · obtain ⟨e, he⟩ := ih hp'
        rw [he]
        exact ⟨e, rfl⟩

lemma mem_idxd {α : Type} (l : List α) (n k : Nat) (a : α) :
    (k, a) ∈ idxd n l ↔ n ≤ k ∧ l.get? (k - n) = some a := by
  induction l generalizing n with
  | nil => simp [idxd]
  | cons x xs ih =>
    simp only [idxd, List.mem_cons, Prod.mk.injEq, ih]
    constructor
    · rintro (⟨rfl, rfl⟩ | ⟨hn, hg⟩)
      · simp
      · constructor
        · omega
        · have : k - n = (k - (n + 1)) + 1 := by omega
          rw [this]
          simpa using hg
    · rintro ⟨hn, hg⟩
      by_cases hk : k = n
      · subst hk
        simp only [Nat.sub_self, List.get?_cons_zero, Option.some.injEq] at hg
        exact Or.inl ⟨rfl, hg.symm⟩
      · right
        constructor
        · omega
        · have : k - n = (k - (n + 1)) + 1 := by omega
          rw [this] at hg
          simpa using hg

lemma mem_idxd_zero {α : Type} (l : List α) (k : Nat) (a : α) :
    (k, a) ∈ idxd 0 l ↔ l.get? k = some a := by
  rw [mem_idxd]
  simp

lemma mem_gearsOf (pns : List PartNumber) (l : List (Nat × List Char)) (g : Gear) :
    g ∈ gearsOf pns l ↔ ∃ p ∈ l, g ∈ gearsOfLine pns p.1 p.2 := by
  induction l with
  | nil => simp [gearsOf]
  | cons p l ih =>
    obtain ⟨li, line⟩ := p
    simp only [gearsOf, List.mem_append, ih, List.mem_cons]
    constructor
    · rintro (hg | ⟨q, hq, hgq⟩)
      · exact ⟨(li, line), Or.inl rfl, hg⟩
      · exact ⟨q, Or.inr hq, hgq⟩
    · rintro ⟨q, hq | hq, hgq⟩
      · subst hq; exact Or.inl hgq
      · exact Or.inr ⟨q, hq, hgq⟩

lemma fromLines_ok_parts (lines : List (List Char)) (s : Schematic)
    (h : Schematic.fromLines lines = .ok s) :
    s.part_numbers =
      (idxd 0 lines).flatMap fun p => (digitRuns p.2).filterMap (keepFn lines p.1 p.2) := by
  unfold Schematic.fromLines at h
  cases h1 : processLines lines (idxd 0 lines) with
  | error e => rw [h1] at h; exact Except.noConfusion h
  | ok pns =>
    rw [h1] at h
    simp only [Except.ok.injEq] at h
    subst h
    exact processLines_ok_eq lines _ pns h1

lemma fromLines_ok_gears (lines : List (List Char)) (s : Schematic)
    (h : Schematic.fromLines lines = .ok s) :
    s.gears = gearsOf s.part_numbers (idxd 0 lines) := by
  unfold Schematic.fromLines at h
  cases h1 : processLines lines (idxd 0 lines) with
  | error e => rw [h1] at h; exact Except.noConfusion h
  | ok pns =>
    rw [h1] at h
    simp only [Except.ok.injEq] at h
    subst h
    rfl

/-! ### Code-side vs. spec-side predicate equivalences -/

lemma symbolAt_iff (line : List Char) (j : Nat) :
    symbolAt line j = true ↔ ∃ c, line.get? j = some c ∧ is_symbol c = true := by
  unfold symbolAt
  cases hl : line.get? j with
  | none => simp
  | some c => simp

lemma getLast?_take (l : List Char) (a : Nat) (h0 : 0 < a) (h : a ≤ l.length) :
    (l.take a).getLast? = l.get? (a - 1) := by
  rw [List.getLast?_eq_get?, List.length_take, Nat.min_eq_left h,
    List.get?_take (by omega)]

lemma is_symbol_left_eq (line : List Char) (a B : Nat) (h : a ≤ line.length) :
    is_symbol_left line (byteOffset line a, B) = spec_left line a := by
  unfold is_symbol_left spec_left
  simp only [take_bytes_byteOffset]
  cases ha : a with
  | zero => simp
  | succ a' =>
    rw [getLast?_take line (a' + 1) (by omega) (ha ▸ h)]
    rw [show (decide (a' + 1 ≠ 0)) = true by simp, Bool.true_and]
    rfl

lemma is_symbol_right_eq (line : List Char) (b B : Nat) :
    is_symbol_right line (B, byteOffset line b) = spec_right line b := by
  unfold is_symbol_right spec_right
  simp only [drop_bytes_byteOffset]
  rw [List.head?_drop]
  rw [← List.get?_eq_getElem?]
  rfl

lemma any_drop_take_iff (l : List Char) (p : Char → Bool) (s n : Nat) :
    (((l.drop s).take n).any p = true) ↔
      ∃ j, s ≤ j ∧ j < s + n ∧ ∃ c, l.get? j = some c ∧ p c = true := by
  rw [List.any_eq_true]
  constructor
  · rintro ⟨x, hx, hp⟩
    obtain ⟨k, hk⟩ := List.mem_iff_get?.mp hx
    have hklen : k < ((l.drop s).take n).length := by
      rw [List.get?_eq_some] at hk
      exact hk.1
    have hkn : k < n := by
      rw [List.length_take] at hklen
      omega
    rw [List.get?_take hkn, List.get?_drop] at hk
    exact ⟨s + k, by omega, by omega, x, hk, hp⟩
  · rintro ⟨j, hsj, hjn, c, hc, hp⟩
    refine ⟨c, ?_, hp⟩
    rw [List.mem_iff_get?]
    refine ⟨j - s, ?_⟩
    rw [List.get?_take (by omega), List.get?_drop, Nat.add_sub_cancel' hsj]
    exact hc

lemma spec_window_iff (other : List Char) (a b : Nat) :
    spec_window other a b = true ↔
      ∃ j c, other.get? j = some c ∧ a ≤ j + 1 ∧ j < b + 1 ∧ is_symbol c = true := by
  unfold spec_window
  rw [List.any_eq_true]
  constructor
  · rintro ⟨j, hj, hcond⟩
    simp only [Bool.and_eq_true, decide_eq_true_eq] at hcond
    obtain ⟨⟨h1, h2⟩, h3⟩ := hcond
    obtain ⟨c, hc, hs⟩ := (symbolAt_iff other j).mp h3
    exact ⟨j, c, hc, h1, h2, hs⟩
  · rintro ⟨j, c, hc, h1, h2, hs⟩
    have hjlen : j < other.length := by
      rw [List.get?_eq_some] at hc
      exact hc.1
    refine ⟨j, List.mem_range.mpr hjlen, ?_⟩
    simp only [Bool.and_eq_true, decide_eq_true_eq]
    exact ⟨⟨h1, h2⟩, (symbolAt_iff other j).mpr ⟨c, hc, hs⟩⟩

lemma is_symbol_in_or_next_to_range_eq (other : List Char) (a b : Nat) :
    is_symbol_in_or_next_to_range other ⟨a, b⟩ = spec_window other a b := by
  rw [Bool.eq_iff_iff]
  unfold is_symbol_in_or_next_to_range CharsRange.grown_by_one CharsRange.len
  simp only
  rw [any_drop_take_iff, spec_window_iff]
  constructor
  · rintro ⟨j, h1, h2, c, hc, hp⟩
    exact ⟨j, c, hc, by omega, by omega, hp⟩
  · rintro ⟨j, c, hc, h1, h2, hp⟩
    exact ⟨j, by omega, by omega, c, hc, hp⟩

lemma is_symbol_above_eq (lines : List (List Char)) (li a b : Nat) :
    is_symbol_above lines li ⟨a, b⟩ =
      (decide (0 < li) && spec_window (lineAt lines (li - 1)) a b) := by
  cases li with
  | zero =>
    rw [show (decide (0 < 0)) = false by simp, Bool.false_and]
    rfl
  | succ k =>
    rw [show (decide (0 < k + 1)) = true by simp, Bool.true_and]
    unfold is_symbol_above
    rw [show checked_sub (k + 1) 1 = some k by simp [checked_sub]]
    unfold is_symbol_in_line_idx lineAt
    simp only [Nat.add_sub_cancel]
    cases hl : lines.get? k with
    | none => simp [spec_window]
    | some l => simp [is_symbol_in_or_next_to_range_eq]

lemma is_symbol_below_eq (lines : List (List Char)) (li a b : Nat) :
    is_symbol_below lines li ⟨a, b⟩ = spec_window (lineAt lines (li + 1)) a b := by
  show (match lines.get? (li + 1) with
    | none => false
    | some l => is_symbol_in_or_next_to_range l ⟨a, b⟩) =
      spec_window (lineAt lines (li + 1)) a b
  unfold lineAt
  cases hl : lines.get? (li + 1) with
  | none => simp [spec_window]
  | some l => simp [is_symbol_in_or_next_to_range_eq]

/-! ### keepFn characterization and C1 -/

lemma keepFn_eq (lines : List (List Char)) (li : Nat) (line : List Char) (a b : Nat)
    (ha : a ≤ line.length) (hb : b ≤ line.length) :
    keepFn lines li line (a, b) =
      if spec_adjacent lines line li a b then
        some ⟨natOfDigits (runText line (a, b)), li,
          (byteOffset line a, byteOffset line b), ⟨a, b⟩⟩
      else none := by
  have hrfl : keepFn lines li line (a, b) =
      if is_symbol_left line (byteOffset line a, byteOffset line b) ||
          is_symbol_right line (byteOffset line a, byteOffset line b) ||
          is_symbol_above lines li
            (CharsRange.from_bytes_range line (byteOffset line a, byteOffset line b)) ||
          is_symbol_below lines li
            (CharsRange.from_bytes_range line (byteOffset line a, byteOffset line b)) then
        some ⟨natOfDigits (runText line (a, b)), li,
          (byteOffset line a, byteOffset line b),
          CharsRange.from_bytes_range line (byteOffset line a, byteOffset line b)⟩
      else none := rfl
  rw [hrfl, from_bytes_range_byteOffset line a b ha hb,
    is_symbol_left_eq line a _ ha, is_symbol_right_eq line b _,
    is_symbol_above_eq, is_symbol_below_eq]
  rfl

/-- C1 helper: full characterization of membership in `part_numbers`. -/
lemma mem_part_numbers_iff (lines : List (List Char)) (s : Schematic)
    (h : Schematic.fromLines lines = .ok s) (pn : PartNumber) :
    pn ∈ s.part_numbers ↔
      ∃ line, lines.get? pn.line_idx = some line ∧
        (pn.range_chars.start, pn.range_chars.stop) ∈ digitRuns line ∧
        spec_adjacent lines line pn.line_idx pn.range_chars.start pn.range_chars.stop = true ∧
        pn = ⟨natOfDigits (runText line (pn.range_chars.start, pn.range_chars.stop)),
          pn.line_idx,
          (byteOffset line pn.range_chars.start, byteOffset line pn.range_chars.stop),
          pn.range_chars⟩ := by
  rw [fromLines_ok_parts lines s h, List.mem_flatMap]
  constructor
  · rintro ⟨⟨li, line⟩, hmem, hpn⟩
    rw [List.mem_filterMap] at hpn
    obtain ⟨⟨a, b⟩, hr, hk⟩ := hpn
    have hline : lines.get? li = some line := (mem_idxd_zero lines li line).mp hmem
    obtain ⟨hab, hbl⟩ := digitRuns_subrange line a b hr
    rw [keepFn_eq lines li line a b (by omega) hbl] at hk
    by_cases hcond : spec_adjacent lines line li a b = true
    · rw [if_pos hcond] at hk
      have hk' := Option.some.inj hk
      subst hk'
      exact ⟨line, hline, hr, hcond, rfl⟩
    · rw [if_neg (by simpa using hcond)] at hk
      exact Option.noConfusion hk
  · rintro ⟨line, hline, hr, hcond, hpn⟩
    refine ⟨(pn.line_idx, line), (mem_idxd_zero lines pn.line_idx line).mpr hline, ?_⟩
    rw [List.mem_filterMap]
    obtain ⟨hab, hbl⟩ := digitRuns_subrange line _ _ hr
    refine ⟨(pn.range_chars.start, pn.range_chars.stop), hr, ?_⟩
    rw [keepFn_eq lines pn.line_idx line _ _ (by omega) hbl, if_pos (by simpa using hcond)]
    rw [← hpn]

lemma is_neighboring_char_eq (pn : PartNumber) (li i : Nat) :
    pn.is_neighboring_char li i = spec_neighbor pn li i := by
  rw [Bool.eq_iff_iff]
  unfold PartNumber.is_neighboring_char spec_neighbor checked_sub
    CharsRange.grown_by_one CharsRange.containsIdx
  simp only [Bool.or_eq_true, Bool.and_eq_true, beq_iff_eq, decide_eq_true_eq,
    Option.ite_none_right_eq_some, Option.some.injEq]
  omega

/-- **C1**: a maximal digit run is retained in `part_numbers` iff a symbol is
immediately left or right of it on its line, or a symbol occurs in the window
`[start - 1, stop + 1)` of the line directly above or below. -/
theorem c1_part_number_retention (lines : List (List Char)) (s : Schematic)
    (h : Schematic.fromLines lines = .ok s) (li : Nat) (line : List Char)
    (hline : lines.get? li = some line) (a b : Nat) (hr : (a, b) ∈ digitRuns line) :
    (∃ pn ∈ s.part_numbers, pn.line_idx = li ∧ pn.range_chars = ⟨a, b⟩) ↔
      spec_adjacent lines line li a b = true := by
  constructor
  · rintro ⟨pn, hpn, hli, hrc⟩
    obtain ⟨line', hline', _, hcond, _⟩ := (mem_part_numbers_iff lines s h pn).mp hpn
    rw [hli] at hline' hcond
    rw [hline] at hline'
    have : line' = line := (Option.some.inj hline').symm
    subst this
    rw [hrc] at hcond
    exact hcond
  · intro hcond
    refine ⟨⟨natOfDigits (runText line (a, b)), li,
      (byteOffset line a, byteOffset line b), ⟨a, b⟩⟩,
      (mem_part_numbers_iff lines s h _).mpr ⟨line, hline, hr, hcond, rfl⟩, rfl, rfl⟩

/-- Witness for C1 at the document `"*1"`. -/
theorem c1_part_number_retention_witness :
    spec_adjacent [toL "*1"] (toL "*1") 0 1 2 = true :=
  (c1_part_number_retention [toL "*1"] ⟨[⟨1, 0, (1, 2), ⟨1, 2⟩⟩], []⟩ (by decide)
    0 (toL "*1") (by decide) 1 2 (by decide)).mp
    ⟨⟨1, 0, (1, 2), ⟨1, 2⟩⟩, by decide, rfl, rfl⟩

/-! ### Gear machinery and C2 -/

lemma mem_starIndices (line : List Char) (i : Nat) :
    i ∈ starIndices line ↔ line.get? i = some '*' := by
  unfold starIndices
  rw [List.mem_filter, List.mem_range, beq_iff_eq]
  constructor
  · rintro ⟨_, h⟩
    exact h
  · intro h
    refine ⟨?_, h⟩
    rw [List.get?_eq_some] at h
    exact h.1

lemma mem_gearsOfLine_iff (pns : List PartNumber) (li : Nat) (line : List Char) (g : Gear) :
    g ∈ gearsOfLine pns li line ↔
      ∃ i, line.get? i = some '*' ∧
        ∃ n1 n2, pns.filter (fun p => p.is_neighboring_char li i) = [n1, n2] ∧
          g = ⟨li, byteOffset line i, i, (n1, n2)⟩ := by
  unfold gearsOfLine
  rw [List.mem_filterMap]
  constructor
  · rintro ⟨i, hi, hf⟩
    rw [mem_starIndices] at hi
    have hilen : i < line.length := by
      rw [List.get?_eq_some] at hi
      exact hi.1
    have hci : CharsRange.bytes_index_to_chars_index line (byteOffset line i) = i :=
      bytes_index_to_chars_index_byteOffset line i (by omega)
    dsimp only at hf
    rw [hci] at hf
    refine ⟨i, hi, ?_⟩
    rcases hfil : pns.filter (fun p => p.is_neighboring_char li i) with _ | ⟨n1, _ | ⟨n2, _ | ⟨n3, t⟩⟩⟩
    all_goals rw [hfil] at hf
    · exact Option.noConfusion hf
    · exact Option.noConfusion hf
    · exact ⟨n1, n2, hfil, (Option.some.inj hf).symm⟩
    · exact Option.noConfusion hf
  · rintro ⟨i, hi, n1, n2, hfil, hg⟩
    have hilen : i < line.length := by
      rw [List.get?_eq_some] at hi
      exact hi.1
    have hci : CharsRange.bytes_index_to_chars_index line (byteOffset line i) = i :=
      bytes_index_to_chars_index_byteOffset line i (by omega)
    refine ⟨i, (mem_starIndices line i).mpr hi, ?_⟩
    dsimp only
    rw [hci, hfil, hg]

lemma mem_gears_iff (lines : List (List Char)) (s : Schematic)
    (h : Schematic.fromLines lines = .ok s) (g : Gear) :
    g ∈ s.gears ↔
      ∃ li line i, lines.get? li = some line ∧ line.get? i = some '*' ∧
        ∃ n1 n2, s.part_numbers.filter (fun p => p.is_neighboring_char li i) = [n1, n2] ∧
          g = ⟨li, byteOffset line i, i, (n1, n2)⟩ := by
  rw [fromLines_ok_gears lines s h, mem_gearsOf]
  constructor
  · rintro ⟨⟨li, line⟩, hmem, hg⟩
    rw [mem_gearsOfLine_iff] at hg
    obtain ⟨i, hi, n1, n2, hfil, hg⟩ := hg
    exact ⟨li, line, i, (mem_idxd_zero lines li line).mp hmem, hi, n1, n2, hfil, hg⟩
  · rintro ⟨li, line, i, hline, hi, n1, n2, hfil, hg⟩
    refine ⟨(li, line), (mem_idxd_zero lines li line).mpr hline, ?_⟩
    rw [mem_gearsOfLine_iff]
    exact ⟨i, hi, n1, n2, hfil, hg⟩

/-- **C2**: a `*` position produces a gear iff exactly two part numbers satisfy
the neighbor predicate there; the gear carries those two in ascending order
over the part-number collection. -/
theorem c2_gear_emission (lines : List (List Char)) (s : Schematic)
    (h : Schematic.fromLines lines = .ok s) (li : Nat) (line : List Char)
    (hline : lines.get? li = some line) (i : Nat) (hstar : line.get? i = some '*') :
    ((∃ g ∈ s.gears, g.line_idx = li ∧ g.index_chars = i) ↔
      (s.part_numbers.filter (fun p => spec_neighbor p li i)).length = 2) ∧
    (∀ g ∈ s.gears, g.line_idx = li → g.index_chars = i →
      s.part_numbers.filter (fun p => spec_neighbor p li i) =
        [g.neighbors.1, g.neighbors.2]) := by
  have hswap : s.part_numbers.filter (fun p => spec_neighbor p li i) =
      s.part_numbers.filter (fun p => p.is_neighboring_char li i) :=
    List.filter_congr fun p _ => (is_neighboring_char_eq p li i).symm
  constructor
  · constructor
    · rintro ⟨g, hg, hgli, hgi⟩
      obtain ⟨li', line', i', hline', hi', n1, n2, hfil, hgdef⟩ :=
        (mem_gears_iff lines s h g).mp hg
      have hli' : li' = li := by rw [hgdef] at hgli; exact hgli
      have hi'' : i' = i := by rw [hgdef] at hgi; exact hgi
      subst hli'
      subst hi''
      rw [hswap, hfil]
      rfl
    · intro hlen
      rw [hswap] at hlen
      obtain ⟨n1, n2, hfil⟩ := List.length_eq_two.mp hlen
      refine ⟨⟨li, byteOffset line i, i, (n1, n2)⟩, ?_, rfl, rfl⟩
      rw [mem_gears_iff lines s h]
      exact ⟨li, line, i, hline, hstar, n1, n2, hfil, rfl⟩
  · rintro g hg hgli hgi
    obtain ⟨li', line', i', hline', hi', n1, n2, hfil, hgdef⟩ :=
      (mem_gears_iff lines s h g).mp hg
    have hli' : li' = li := by rw [hgdef] at hgli; exact hgli
    have hi'' : i' = i := by rw [hgdef] at hgi; exact hgi
    subst hli'
    subst hi''
    rw [hswap, hfil, hgdef]

/-- Witness for C2 at the document `"1*1"`. -/
theorem c2_gear_emission_witness :
    (([⟨1, 0, (0, 1), ⟨0, 1⟩⟩, ⟨1, 0, (2, 3), ⟨2, 3⟩⟩] : List PartNumber).filter
      (fun p => spec_neighbor p 0 1)).length = 2 :=
  (c2_gear_emission [toL "1*1"]
    ⟨[⟨1, 0, (0, 1), ⟨0, 1⟩⟩, ⟨1, 0, (2, 3), ⟨2, 3⟩⟩],
     [⟨0, 1, 1, (⟨1, 0, (0, 1), ⟨0, 1⟩⟩, ⟨1, 0, (2, 3), ⟨2, 3⟩⟩)⟩]⟩ (by decide)
    0 (toL "1*1") (by decide) 1 (by decide)).1.mp
    ⟨⟨0, 1, 1, (⟨1, 0, (0, 1), ⟨0, 1⟩⟩, ⟨1, 0, (2, 3), ⟨2, 3⟩⟩)⟩, by decide, rfl, rfl⟩

/-! ### C3, C4, C5 -/

lemma take_bytes_zero (line : List Char) : take_bytes line 0 = [] := by
  cases line with
  | nil => rfl
  | cons c rest =>
    have := csize_pos c
    unfold take_bytes
    rw [if_neg (by omega)]

lemma fromLines_error_iff (lines : List (List Char)) (e : ParseError) :
    Schematic.fromLines lines = .error e ↔ processLines lines (idxd 0 lines) = .error e := by
  unfold Schematic.fromLines
  cases h : processLines lines (idxd 0 lines) with
  | error e' => simp
  | ok pns => simp

/-- **C3**: the canonical 10-line example yields part-number sum 4361, exactly
two gears with neighbor pairs (467, 35) and (755, 598), and gear-ratio sum
467835. -/
theorem c3_example_fixture :
    (Schematic.fromLines [toL "467..114..", toL "...*......", toL "..35..633.",
      toL "......#...", toL "617*......", toL ".....+.58.", toL "..592.....",
      toL "......755.", toL "...$.*....", toL ".664.598.."]).toOption.map
      (fun s => ((s.part_numbers.map (·.part_number)).sum,
                 s.gears.length,
                 s.gears.map (fun g => (g.neighbors.1.part_number, g.neighbors.2.part_number)),
                 (s.gears.map Gear.gear_ratio).sum))
    = some (4361, 2, [(467, 35), (755, 598)], 467835) := by decide

/-- **C4**: all boundary lookups are total and return "not a symbol": no
character left of column 0, no character right of the end of the line, no line
above line 0, no line below the last line, and a symbol found in a widened
window always lies within the scanned line's own length. -/
theorem c4_boundary_safety :
    (∀ line b, is_symbol_left line (0, b) = false) ∧
    (∀ line a b, byteLen line ≤ b → is_symbol_right line (a, b) = false) ∧
    (∀ lines r, is_symbol_above lines 0 r = false) ∧
    (∀ lines li r, lines.length ≤ li + 1 → is_symbol_below lines li r = false) ∧
    (∀ line r, is_symbol_in_or_next_to_range line r = true →
      ∃ j c, line.get? j = some c ∧ r.start - 1 ≤ j ∧ j < r.stop + 1 ∧
        is_symbol c = true) := by
  refine ⟨?_, ?_, ?_, ?_, ?_⟩
  · intro line b
    unfold is_symbol_left
    rw [take_bytes_zero]
    rfl
  · intro line a b hb
    unfold is_symbol_right
    rw [drop_bytes_of_byteLen_le line b hb]
    rfl
  · intro lines r
    rfl
  · intro lines li r hlen
    show (match lines.get? (li + 1) with
      | none => false
      | some l => is_symbol_in_or_next_to_range l r) = false
    rw [List.get?_eq_getElem?, List.getElem?_eq_none (by omega)]
  · intro line r hsym
    unfold is_symbol_in_or_next_to_range CharsRange.grown_by_one CharsRange.len at hsym
    rw [any_drop_take_iff] at hsym
    dsimp only at hsym
    obtain ⟨j, h1, h2, c, hc, hp⟩ := hsym
    exact ⟨j, c, hc, by omega, by omega, hp⟩

/-- Witness for C4. -/
theorem c4_boundary_safety_witness :
    is_symbol_right (toL ".") (0, 1) = false ∧
    is_symbol_below [toL "1"] 0 ⟨0, 1⟩ = false ∧
    (∃ j c, (toL "+").get? j = some c ∧ 0 - 1 ≤ j ∧ j < 1 + 1 ∧ is_symbol c = true) :=
  ⟨c4_boundary_safety.2.1 (toL ".") 0 1 (by decide),
   c4_boundary_safety.2.2.2.1 [toL "1"] 0 ⟨0, 1⟩ (by decide),
   c4_boundary_safety.2.2.2.2 (toL "+") ⟨0, 1⟩ (by decide)⟩

/-- **C5**: parsing fails exactly when some maximal digit run's value does not
fit in a `u64`, and every error is a `malformedNumber` carrying the offending
line and the matched substring. -/
theorem c5_error_characterization (lines : List (List Char)) :
    ((∃ e, Schematic.fromLines lines = .error e) ↔
      ∃ line ∈ lines, ∃ r ∈ digitRuns line, 2 ^ 64 ≤ natOfDigits (runText line r)) ∧
    (∀ e, Schematic.fromLines lines = .error e →
      ∃ line ∈ lines, ∃ r ∈ digitRuns line,
        e = .malformedNumber line (runText line r) ∧
          2 ^ 64 ≤ natOfDigits (runText line r)) := by
  constructor
  · constructor
    · rintro ⟨e, he⟩
      rw [fromLines_error_iff] at he
      obtain ⟨p, hp, r, hr, _, hv⟩ := processLines_error_form lines _ e he
      obtain ⟨li, line⟩ := p
      have hline : lines.get? li = some line := (mem_idxd_zero lines li line).mp hp
      exact ⟨line, List.get?_mem hline, r, hr, hv⟩
    · rintro ⟨line, hline, r, hr, hv⟩
      obtain ⟨k, hk⟩ := List.mem_iff_get?.mp hline
      obtain ⟨e, he⟩ := processLines_error_exists lines (idxd 0 lines) (k, line)
        ((mem_idxd_zero lines k line).mpr hk) r hr hv
      exact ⟨e, (fromLines_error_iff lines e).mpr he⟩
  · intro e he
    rw [fromLines_error_iff] at he
    obtain ⟨p, hp, r, hr, hform, hv⟩ := processLines_error_form lines _ e he
    obtain ⟨li, line⟩ := p
    have hline : lines.get? li = some line := (mem_idxd_zero lines li line).mp hp
    exact ⟨line, List.get?_mem hline, r, hr, hform, hv⟩

/-- Witness for C5 at a document containing a 20-digit number. -/
theorem c5_error_characterization_witness :
    ∃ line ∈ [toL "99999999999999999999*"], ∃ r ∈ digitRuns line,
      (ParseError.malformedNumber (toL "99999999999999999999*")
        (toL "99999999999999999999")) = .malformedNumber line (runText line r) ∧
        2 ^ 64 ≤ natOfDigits (runText line r) :=
  (c5_error_characterization [toL "99999999999999999999*"]).2 _ (by decide)

/-! ### C6 and C7 -/

lemma byteOffset_split (line : List Char) (a b : Nat) (hab : a ≤ b) :
    byteOffset line b = byteOffset line a + (((line.drop a).take (b - a)).map csize).sum := by
  unfold byteOffset
  rw [show b = a + (b - a) by omega, List.take_add, List.map_append, List.sum_append,
    Nat.add_sub_cancel_left]

lemma sum_csize_ones (l : List Char) (h : ∀ c ∈ l, csize c = 1) :
    (l.map csize).sum = l.length := by
  induction l with
  | nil => simp
  | cons c rest ih =>
    rw [List.map_cons, List.sum_cons, h c (List.mem_cons_self c rest),
      ih fun x hx => h x (List.mem_cons_of_mem c hx), List.length_cons]
    omega

/-- Counterexample to **C6** as stated: on the line `"߷12"` the byte-span
length equals the char-span length even though a character before the token is
not single-byte-encoded, so the claimed "equality iff token and prefix are
single-byte" fails. -/
theorem c6_counterexample :
    (1, 3) ∈ digitRuns (toL "߷12") ∧
    ¬ ((byteOffset (toL "߷12") 3 - byteOffset (toL "߷12") 1 = 3 - 1) ↔
        (∀ c ∈ (toL "߷12").take 3, csize c = 1)) := by decide

/-- **C6 (amended)**: for every maximal digit run, the derived char span is
exactly the run's index range, so its length is the digit count; the byte-span
length always equals the char-span length (the token's characters are ASCII
digits, hence single-byte); and the byte span coincides with the char span as
a pair iff every character before the token is single-byte-encoded. -/
theorem c6_span_consistency (line : List Char) (a b : Nat)
    (hr : (a, b) ∈ digitRuns line) :
    CharsRange.from_bytes_range line (byteOffset line a, byteOffset line b) = ⟨a, b⟩ ∧
    ((runText line (a, b)).filter Char.isDigit).length = b - a ∧
    byteOffset line b - byteOffset line a = b - a ∧
    ((byteOffset line a, byteOffset line b) = (a, b) ↔
      ∀ c ∈ line.take a, csize c = 1) := by
  obtain ⟨hab, hbl⟩ := digitRuns_subrange line a b hr
  have hb' : b = runStop line a := ((mem_digitRuns line a b).mp hr).2
  have hdig : ∀ c ∈ runText line (a, b), c.isDigit = true := by
    intro c hc
    rw [hb'] at hc
    exact runText_digits line a c hc
  have hlen : (runText line (a, b)).length = b - a := by
    unfold runText
    rw [List.length_take, List.length_drop]
    omega
  have hsum : ((runText line (a, b)).map csize).sum = b - a := by
    rw [sum_csize_ones _ fun c hc => csize_digit c (hdig c hc), hlen]
  have hsplit : byteOffset line b = byteOffset line a + (b - a) := by
    rw [byteOffset_split line a b (by omega),
      show List.take (b - a) (List.drop a line) = runText line (a, b) from rfl, hsum]
  refine ⟨from_bytes_range_byteOffset line a b (by omega) hbl, ?_, by omega, ?_⟩
  · rw [List.filter_eq_self.mpr hdig, hlen]
  · constructor
    · intro hpair
      have h1 : byteOffset line a = a := congrArg Prod.fst hpair
      exact all_single_of_byteOffset_eq line a (by omega) h1
    · intro hall
      have h1 : byteOffset line a = a := byteOffset_eq_of_all_single line a (by omega) hall
      rw [Prod.mk.injEq]
      exact ⟨h1, by omega⟩

/-- Witness for the amended C6 at the line `"߷12"`, run `[1, 3)`. -/
theorem c6_span_consistency_witness :
    byteOffset (toL "߷12") 3 - byteOffset (toL "߷12") 1 = 3 - 1 :=
  (c6_span_consistency (toL "߷12") 1 3 (by decide)).2.2.1

/-- **C7**: the char span derived from byte offsets recovers the logical
character columns, and adjacency against another line examines logical
character columns `[a - 1, b + 1)`, independent of byte widths. -/
theorem c7_char_alignment (line : List Char) (a b : Nat) (ha : a ≤ line.length)
    (hb : b ≤ line.length) (other : List Char) :
    CharsRange.from_bytes_range line (byteOffset line a, byteOffset line b) = ⟨a, b⟩ ∧
    (is_symbol_in_or_next_to_range other ⟨a, b⟩ = true ↔
      ∃ j c, other.get? j = some c ∧ a ≤ j + 1 ∧ j < b + 1 ∧ is_symbol c = true) ∧
    (∀ lines li, is_symbol_above lines li ⟨a, b⟩ =
      (decide (0 < li) && spec_window (lineAt lines (li - 1)) a b)) := by
  refine ⟨from_bytes_range_byteOffset line a b ha hb, ?_, ?_⟩
  · rw [is_symbol_in_or_next_to_range_eq, spec_window_iff]
  · intro lines li
    exact is_symbol_above_eq lines li a b

/-- Witness for C7: the repository's own UTF-8 test case — the two-byte
character `'߷'` at position 0 does not shift the window. -/
theorem c7_char_alignment_witness :
    CharsRange.from_bytes_range (toL "߷..123...")
      (byteOffset (toL "߷..123...") 3, byteOffset (toL "߷..123...") 6) = ⟨3, 6⟩ :=
  (c7_char_alignment (toL "߷..123...") 3 6 (by decide) (by decide) (toL "..+.....")).1

/-! ### C8 -/

/-- **C8**: an empty line contributes no part numbers and no gears, yet still
occupies its own line index: every part number's `line_idx` addresses the
original document's line list, where its span is a genuine digit run. -/
theorem c8_empty_lines (doc : List Char) (s : Schematic)
    (h : Schematic.from_str doc = .ok s) (k : Nat)
    (hk : (linesOf doc).get? k = some []) :
    (∀ pn ∈ s.part_numbers, pn.line_idx ≠ k) ∧
    (∀ g ∈ s.gears, g.line_idx ≠ k) ∧
    (∀ pn ∈ s.part_numbers, ∃ line, (linesOf doc).get? pn.line_idx = some line ∧
      (pn.range_chars.start, pn.range_chars.stop) ∈ digitRuns line) := by
  have h' : Schematic.fromLines (linesOf doc) = .ok s := h
  refine ⟨?_, ?_, ?_⟩
  · intro pn hpn hpk
    obtain ⟨line, hline, hr, _, _⟩ := (mem_part_numbers_iff _ s h' pn).mp hpn
    rw [hpk, hk] at hline
    have hnil : line = [] := (Option.some.inj hline).symm
    subst hnil
    simp [digitRuns] at hr
  · intro g hg hgk
    obtain ⟨li, line, i, hline, hstar, n1, n2, hfil, hgdef⟩ :=
      (mem_gears_iff _ s h' g).mp hg
    have hli : li = k := by rw [hgdef] at hgk; exact hgk
    subst hli
    rw [hk] at hline
    have hnil : line = [] := (Option.some.inj hline).symm
    subst hnil
    simp at hstar
  · intro pn hpn
    obtain ⟨line, hline, hr, _, _⟩ := (mem_part_numbers_iff _ s h' pn).mp hpn
    exact ⟨line, hline, hr⟩

/-- Witness for C8 at the document `"1*\n\n*2"` (its middle line is empty). -/
theorem c8_empty_lines_witness :
    (⟨1, 0, (0, 1), ⟨0, 1⟩⟩ : PartNumber).line_idx ≠ 1 :=
  (c8_empty_lines (toL "1*\x0a\x0a*2")
      ⟨[⟨1, 0, (0, 1), ⟨0, 1⟩⟩, ⟨2, 2, (1, 2), ⟨1, 2⟩⟩], []⟩ (by decide)
      1 (by decide)).1
    ⟨1, 0, (0, 1), ⟨0, 1⟩⟩ (by decide)

/-! ### C9 -/

lemma length_filter_filterMap_le {α β : Type} (f : α → Option β) (P : β → Bool)
    (Q : α → Bool) (l : List α)
    (H : ∀ x ∈ l, ∀ y, f x = some y → P y = true → Q x = true) :
    ((l.filterMap f).filter P).length ≤ (l.filter Q).length := by
  induction l with
  | nil => simp
  | cons x xs ih =>
    have ih' := ih fun z hz => H z (List.mem_cons_of_mem _ hz)
    have Hx := H x (List.mem_cons_self _ _)
    rw [List.filterMap_cons]
    cases hf : f x with
    | none =>
      rw [List.filter_cons]
      by_cases hq : Q x = true
      · rw [if_pos (by simpa using hq)]
        simp only [List.length_cons]
        omega
      · rw [if_neg (by simpa using hq)]
        exact ih'
    | some y =>
      rw [List.filter_cons, List.filter_cons]
      by_cases hp : P y = true
      · have hq : Q x = true := Hx y hf hp
        rw [if_pos (by simpa using hp), if_pos (by simpa using hq)]
        simp only [List.length_cons]
        omega
      · rw [if_neg (by simpa using hp)]
        by_cases hq : Q x = true
        · rw [if_pos (by simpa using hq)]
          simp only [List.length_cons]
          omega
        · rw [if_neg (by simpa using hq)]
          exact ih'

lemma gearsOfLine_refs_le (pns : List PartNumber) (li : Nat) (line : List Char)
    (pn : PartNumber) :
    ((gearsOfLine pns li line).filter fun g =>
      decide (g.neighbors.1 = pn) || decide (g.neighbors.2 = pn)).length ≤
    ((starIndices line).filter fun i => pn.is_neighboring_char li i).length := by
  unfold gearsOfLine
  apply length_filter_filterMap_le
  intro i hi g hf hP
  have hilen : i < line.length := by
    rw [mem_starIndices, List.get?_eq_some] at hi
    exact hi.1
  have hci := bytes_index_to_chars_index_byteOffset line i (by omega)
  dsimp only at hf
  rw [hci] at hf
  rcases hfil : pns.filter (fun p => p.is_neighboring_char li i)
    with _ | ⟨n1, _ | ⟨n2, _ | ⟨n3, t⟩⟩⟩
  all_goals rw [hfil] at hf
  · exact Option.noConfusion hf
  · exact Option.noConfusion hf
  · have hg : g = ⟨li, byteOffset line i, i, (n1, n2)⟩ := (Option.some.inj hf).symm
    subst hg
    simp only [Bool.or_eq_true, decide_eq_true_eq] at hP
    have hmem : pn ∈ pns.filter (fun p => p.is_neighboring_char li i) := by
      rw [hfil]
      rcases hP with hP | hP
      · rw [← hP]
        exact List.mem_cons_self _ _
      · rw [← hP]
        exact List.mem_cons_of_mem _ (List.mem_cons_self _ _)
    exact (List.mem_filter.mp hmem).2
  · exact Option.noConfusion hf

lemma gearsOf_refs_le (pns : List PartNumber) (pn : PartNumber)
    (l : List (Nat × List Char)) :
    ((gearsOf pns l).filter fun g =>
      decide (g.neighbors.1 = pn) || decide (g.neighbors.2 = pn)).length ≤
    (l.map fun p =>
      ((starIndices p.2).filter fun i => pn.is_neighboring_char p.1 i).length).sum := by
  induction l with
  | nil => simp [gearsOf]
  | cons p rest ih =>
    obtain ⟨li, line⟩ := p
    rw [show gearsOf pns ((li, line) :: rest) =
      gearsOfLine pns li line ++ gearsOf pns rest from rfl]
    rw [List.filter_append, List.length_append, List.map_cons, List.sum_cons]
    dsimp only
    have h1 := gearsOfLine_refs_le pns li line pn
    omega

/-- Counterexample to **C9** as stated: in the 3-line grid below the central
part number `1` is referenced by four gears, not at most two. -/
theorem c9_counterexample :
    ((Schematic.fromLines [toL "1*.*1", toL "..1..", toL "1*.*1"]).toOption.map
      fun s => (decide ((⟨1, 1, (2, 3), ⟨2, 3⟩⟩ : PartNumber) ∈ s.part_numbers),
        (s.gears.filter fun g =>
          decide (g.neighbors.1 = ⟨1, 1, (2, 3), ⟨2, 3⟩⟩) ||
          decide (g.neighbors.2 = ⟨1, 1, (2, 3), ⟨2, 3⟩⟩)).length))
    = some (true, 4) := by decide

/-- **C9 (amended)**: a part number may be referenced by more than two gears;
the number of gears referencing it is bounded by the number of `*` positions
in the document that neighbor it (at most one gear per `*` position). -/
theorem c9_gear_reference_bound (lines : List (List Char)) (s : Schematic)
    (h : Schematic.fromLines lines = .ok s) (pn : PartNumber) :
    (s.gears.filter fun g =>
      decide (g.neighbors.1 = pn) || decide (g.neighbors.2 = pn)).length ≤
    starsNeighboring lines pn := by
  rw [fromLines_ok_gears lines s h]
  exact gearsOf_refs_le s.part_numbers pn (idxd 0 lines)

/-- Witness for the amended C9 on the single-line document `"5*7"`. -/
theorem c9_gear_reference_bound_witness :
    (([⟨0, 1, 1, (⟨5, 0, (0, 1), ⟨0, 1⟩⟩, ⟨7, 0, (2, 3), ⟨2, 3⟩⟩)⟩] : List Gear).filter
      fun g => decide (g.neighbors.1 = ⟨5, 0, (0, 1), ⟨0, 1⟩⟩) ||
        decide (g.neighbors.2 = ⟨5, 0, (0, 1), ⟨0, 1⟩⟩)).length ≤
    starsNeighboring [toL "5*7"] ⟨5, 0, (0, 1), ⟨0, 1⟩⟩ :=
  c9_gear_reference_bound [toL "5*7"]
    ⟨[⟨5, 0, (0, 1), ⟨0, 1⟩⟩, ⟨7, 0, (2, 3), ⟨2, 3⟩⟩],
     [⟨0, 1, 1, (⟨5, 0, (0, 1), ⟨0, 1⟩⟩, ⟨7, 0, (2, 3), ⟨2, 3⟩⟩)⟩]⟩
    (by decide) ⟨5, 0, (0, 1), ⟨0, 1⟩⟩

/-! ### C10 -/

lemma fromLines_ok_processLines (lines : List (List Char)) (s : Schematic)
    (h : Schematic.fromLines lines = .ok s) :
    processLines lines (idxd 0 lines) = .ok s.part_numbers := by
  unfold Schematic.fromLines at h
  cases h1 : processLines lines (idxd 0 lines) with
  | error e => rw [h1] at h; exact Except.noConfusion h
  | ok pns =>
    rw [h1] at h
    simp only [Except.ok.injEq] at h
    subst h
    rfl

lemma part_number_lt (lines : List (List Char)) (s : Schematic)
    (h : Schematic.fromLines lines = .ok s) (pn : PartNumber)
    (hpn : pn ∈ s.part_numbers) : pn.part_number < 2 ^ 64 := by
  obtain ⟨line, hline, hr, _, hpneq⟩ := (mem_part_numbers_iff lines s h pn).mp hpn
  have hv := processLines_ok_value lines (idxd 0 lines) s.part_numbers
    (fromLines_ok_processLines lines s h) (pn.line_idx, line)
    ((mem_idxd_zero lines pn.line_idx line).mpr hline) _ hr
  rw [hpneq]
  exact hv

/-- Counterexample to **C10** as stated: two parser-accepted runs of value
`2 ^ 32` form a gear whose `gear_ratio` wraps to 0 instead of the exact
product `2 ^ 64`. -/
theorem c10_counterexample :
    (Schematic.fromLines [toL "4294967296*4294967296"]).toOption.map
      (fun s => s.gears.map fun g =>
        (g.gear_ratio, g.neighbors.1.part_number * g.neighbors.2.part_number))
    = some [(0, 18446744073709551616)] := by decide

/-- **C10 (amended)**: for every gear of a parsed schematic both neighbor
values fit in a `u64`, and `gear_ratio` is their product reduced modulo
`2 ^ 64`; it equals the exact mathematical product whenever that product is
below `2 ^ 64` (the `u64` multiplication can overflow, so exactness is not
unconditional). -/
theorem c10_gear_ratio (lines : List (List Char)) (s : Schematic)
    (h : Schematic.fromLines lines = .ok s) (g : Gear) (hg : g ∈ s.gears) :
    g.neighbors.1.part_number < 2 ^ 64 ∧ g.neighbors.2.part_number < 2 ^ 64 ∧
    g.gear_ratio = (g.neighbors.1.part_number * g.neighbors.2.part_number) % 2 ^ 64 ∧
    (g.neighbors.1.part_number * g.neighbors.2.part_number < 2 ^ 64 →
      g.gear_ratio = g.neighbors.1.part_number * g.neighbors.2.part_number) := by
  obtain ⟨li, line, i, hline, hstar, n1, n2, hfil, hgdef⟩ :=
    (mem_gears_iff lines s h g).mp hg
  have hn1 : n1 ∈ s.part_numbers := by
    have : n1 ∈ s.part_numbers.filter (fun p => p.is_neighboring_char li i) := by
      rw [hfil]
      exact List.mem_cons_self _ _
    exact (List.mem_filter.mp this).1
  have hn2 : n2 ∈ s.part_numbers := by
    have : n2 ∈ s.part_numbers.filter (fun p => p.is_neighboring_char li i) := by
      rw [hfil]
      exact List.mem_cons_of_mem _ (List.mem_cons_self _ _)
    exact (List.mem_filter.mp this).1
  have hg1 : g.neighbors.1 = n1 := by rw [hgdef]
  have hg2 : g.neighbors.2 = n2 := by rw [hgdef]
  rw [hg1, hg2]
  refine ⟨part_number_lt lines s h n1 hn1, part_number_lt lines s h n2 hn2, ?_, ?_⟩
  · rw [hgdef]
    rfl
  · intro hlt
    rw [hgdef]
    show (n1.part_number * n2.part_number) % 2 ^ 64 = n1.part_number * n2.part_number
    exact Nat.mod_eq_of_lt hlt

/-- Witness for the amended C10 on the document `"2*3"`. -/
theorem c10_gear_ratio_witness :
    (⟨0, 1, 1, (⟨2, 0, (0, 1), ⟨0, 1⟩⟩, ⟨3, 0, (2, 3), ⟨2, 3⟩⟩)⟩ : Gear).gear_ratio =
      (⟨2, 0, (0, 1), ⟨0, 1⟩⟩ : PartNumber).part_number *
      (⟨3, 0, (2, 3), ⟨2, 3⟩⟩ : PartNumber).part_number :=
  (c10_gear_ratio [toL "2*3"]
    ⟨[⟨2, 0, (0, 1), ⟨0, 1⟩⟩, ⟨3, 0, (2, 3), ⟨2, 3⟩⟩],
     [⟨0, 1, 1, (⟨2, 0, (0, 1), ⟨0, 1⟩⟩, ⟨3, 0, (2, 3), ⟨2, 3⟩⟩)⟩]⟩ (by decide)
    ⟨0, 1, 1, (⟨2, 0, (0, 1), ⟨0, 1⟩⟩, ⟨3, 0, (2, 3), ⟨2, 3⟩⟩)⟩
    (by decide)).2.2.2 (by decide)

end Day3
